import Mathlib

/-!
Verification development for the mdbx-containers library.

The definitions below are shallow embeddings of the C++ sources:

* `detail/utils.hpp` — serialization dispatch (`serialize_value`,
  `deserialize_value`, `serialize_key`, `sortable_key_from_float`,
  `sortable_key_from_double`, `get_mdbx_flags`);
* `KeyValueTable.hpp` — table operations (`db_reconcile`,
  `db_insert_if_absent`, `db_insert_or_assign`, `db_get`,
  `with_transaction`, `AssignmentProxy`);
* `common/Connection.ipp` — the manual thread-keyed transaction API
  (`begin`/`commit`/`rollback`) and the pathname resolution in `db_init`;
* `Transaction.ipp` — the transaction state machine
  (`begin`/`commit`/`rollback`/destructor);
* `TransactionTracker.ipp` — the thread → transaction-handle registry.

Machine bytes are modelled as `Fin 256`; machine integers as `Nat`/`Int`
with explicit reductions modulo `2 ^ w` where the C++ performs a
truncating conversion.  Fallible C++ code (functions that `throw`) is
modelled with `Except`.
-/

namespace Mdbxc

/-- A machine byte, the unit of all MDBX value buffers. -/
abbrev Byte := Fin 256

/-- Errors raised by `deserialize_value` (the `std::runtime_error` throws
in `detail/utils.hpp`). -/
inductive DeserializeError where
  /-- thrown message: size not aligned. -/
  | sizeNotAligned : DeserializeError
  /-- thrown message: size mismatch. -/
  | sizeMismatch : DeserializeError
  /-- thrown message: corrupted data (length overflow). -/
  | lengthOverflow : DeserializeError
  /-- thrown message: trailing data after deserialization. -/
  | trailingData : DeserializeError
deriving DecidableEq, Repr

/-- The little-endian bytes of `n mod 2^32`, as written by
`serialize_value` for a string container: `uint32_t len =
static_cast<uint32_t>(str.size())` copied byte-for-byte into the buffer
(native little-endian order on the supported targets). -/
def leBytes4 (n : ℕ) : List Byte :=
  [ ⟨n % 2 ^ 32 % 256, Nat.mod_lt _ (by norm_num)⟩
  , ⟨n % 2 ^ 32 / 256 % 256, Nat.mod_lt _ (by norm_num)⟩
  , ⟨n % 2 ^ 32 / 256 ^ 2 % 256, Nat.mod_lt _ (by norm_num)⟩
  , ⟨n % 2 ^ 32 / 256 ^ 3 % 256, Nat.mod_lt _ (by norm_num)⟩ ]

/-- Reading a `uint32_t` back from four little-endian bytes, as done by
`std::memcpy(&len, ptr, sizeof(uint32_t))` in `deserialize_value`. -/
def leVal4 (b0 b1 b2 b3 : Byte) : ℕ :=
  b0.val + 256 * b1.val + 256 ^ 2 * b2.val + 256 ^ 3 * b3.val

theorem leVal4_of_leBytes4 (n : ℕ) (b0 b1 b2 b3 : Byte)
    (h : leBytes4 n = [b0, b1, b2, b3]) :
    leVal4 b0 b1 b2 b3 = n % 2 ^ 32 := by
  simp only [leBytes4, List.cons.injEq, and_true] at h
  obtain ⟨h0, h1, h2, h3⟩ := h
  subst h0 h1 h2 h3
  simp only [leVal4]
  omega

theorem leVal4_lt (b0 b1 b2 b3 : Byte) : leVal4 b0 b1 b2 b3 < 2 ^ 32 := by
  have h0 := b0.isLt
  have h1 := b1.isLt
  have h2 := b2.isLt
  have h3 := b3.isLt
  simp only [leVal4]
  omega

/-- Splitting a buffer into consecutive `k`-byte chunks: the read loop of
`deserialize_value` for a container of trivially copyable elements, which
reinterprets the buffer as `count = len / k` consecutive elements. -/
def chunks (k : ℕ) : List Byte → List (List Byte)
  | [] => []
  | b :: rest =>
    if _h : k = 0 then []
    else (b :: rest).take k :: chunks k ((b :: rest).drop k)
termination_by l => l.length
decreasing_by
  simp only [List.length_drop, List.length_cons]
  omega

/-- `serialize_value` for `std::string`: the raw bytes, no length prefix
(`MDBX_val{ value.size(), value.data() }`). -/
def serialize_value_string (s : List Byte) : List Byte := s

/-- `deserialize_value` for `std::string`: reconstructs the string from
the whole buffer (`std::string(ptr, iov_len)`), never fails. -/
def deserialize_value_string (buf : List Byte) : List Byte := buf

/-- `serialize_value` for a byte vector/deque/list: the raw bytes. -/
def serialize_value_bytes (v : List Byte) : List Byte := v

/-- `deserialize_value` for a byte vector/deque/list:
`T(ptr, ptr + iov_len)`, never fails. -/
def deserialize_value_bytes (buf : List Byte) : List Byte := buf

/-- `serialize_value` for a trivially copyable `T`: the `sizeof(T)` bytes
of the value's object representation (`MDBX_val{ &value, sizeof(T) }`).
The value is identified with its object representation, which for a
trivially copyable type round-trips through `memcpy` exactly. -/
def serialize_value_trivial (v : List Byte) : List Byte := v

/-- `deserialize_value` for a trivially copyable `T` of size `k`:
requires `iov_len == sizeof(T)` and `memcpy`s the bytes back. -/
def deserialize_value_trivial (k : ℕ) (buf : List Byte) :
    Except DeserializeError (List Byte) :=
  if buf.length ≠ k then .error .sizeMismatch else .ok buf

/-- `serialize_value` for a container of trivially copyable elements of
size `k`: the elements' bytes concatenated in iteration order
(`std::copy`/`memcpy` into `sc.bytes`). -/
def serialize_value_elems (c : List (List Byte)) : List Byte := c.flatten

/-- `deserialize_value` for a container of trivially copyable elements of
size `k`: requires `iov_len % k == 0` (else size-not-aligned error) and
reads `iov_len / k` consecutive elements. -/
def deserialize_value_elems (k : ℕ) (buf : List Byte) :
    Except DeserializeError (List (List Byte)) :=
  if buf.length % k ≠ 0 then .error .sizeNotAligned
  else .ok (chunks k buf)

/-- `serialize_value` for a container of `std::string`: each element
encoded as a 4-byte length followed by its raw bytes, concatenated in
iteration order. -/
def serialize_value_strs (c : List (List Byte)) : List Byte :=
  (c.map (fun s => leBytes4 s.length ++ s)).flatten

/-- `deserialize_value` for a container of `std::string`: walks 4-byte
length-prefixed spans while at least 4 bytes remain (`ptr +
sizeof(uint32_t) <= end`); a span length reaching past the buffer end
(`ptr + len > end`) raises the length-overflow error, and any unconsumed
bytes after the loop (`ptr != end`) raise the trailing-data error. -/
def deserialize_value_strs : List Byte → Except DeserializeError (List (List Byte))
  | [] => .ok []
  | [_] => .error .trailingData
  | [_, _] => .error .trailingData
  | [_, _, _] => .error .trailingData
  | b0 :: b1 :: b2 :: b3 :: rest =>
    let len := leVal4 b0 b1 b2 b3
    if _h : rest.length < len then .error .lengthOverflow
    else
      match deserialize_value_strs (rest.drop len) with
      | .error e => .error e
      | .ok tail => .ok (rest.take len :: tail)
termination_by buf => buf.length
decreasing_by
  simp only [List.length_drop, List.length_cons]
  omega

/-- `serialize_value` for a type exposing `to_bytes()`: delegates to the
type's own encoder (`sc.bytes = value.to_bytes()`). -/
def serialize_value_tb {α : Type} (toB : α → List Byte) (v : α) : List Byte :=
  toB v

/-- `deserialize_value` for a type exposing a static `from_bytes()`:
delegates to the type's own decoder (`T::from_bytes(iov_base, iov_len)`),
whose data-format errors propagate. -/
def deserialize_value_fb {α : Type}
    (fromB : List Byte → Except DeserializeError α) (buf : List Byte) :
    Except DeserializeError α :=
  fromB buf

theorem leBytes4_leVal4 (b0 b1 b2 b3 : Byte) :
    leBytes4 (leVal4 b0 b1 b2 b3) = [b0, b1, b2, b3] := by
  have h0 := b0.isLt
  have h1 := b1.isLt
  have h2 := b2.isLt
  have h3 := b3.isLt
  simp only [leBytes4, leVal4, List.cons.injEq, and_true]
  refine ⟨?_, ?_, ?_, ?_⟩ <;> (apply Fin.ext; simp only []; omega)

theorem chunks_flatten (k : ℕ) (hk : 0 < k) :
    ∀ c : List (List Byte), (∀ e ∈ c, e.length = k) →
      chunks k c.flatten = c := by
  intro c
  induction c with
  | nil => intro _; simp [chunks]
  | cons e c ih =>
    intro hlen
    have he : e.length = k := hlen e (by simp)
    have hne : e ≠ [] := by
      intro h
      rw [h] at he
      simp at he
      omega
    obtain ⟨b, bs, rfl⟩ := List.exists_cons_of_ne_nil hne
    have hflat : ((b :: bs) :: c).flatten = b :: (bs ++ c.flatten) := by
      simp
    rw [hflat, chunks]
    have hk' : ¬ k = 0 := by omega
    simp only [hk', dif_neg, not_false_iff]
    have htake : (b :: (bs ++ c.flatten)).take k = b :: bs := by
      have : (b :: bs) ++ c.flatten = b :: (bs ++ c.flatten) := by simp
      rw [← this, List.take_left' he]
    have hdrop : (b :: (bs ++ c.flatten)).drop k = c.flatten := by
      have : (b :: bs) ++ c.flatten = b :: (bs ++ c.flatten) := by simp
      rw [← this, List.drop_left' he]
    rw [htake, hdrop, ih (fun e' h' => hlen e' (by simp [h']))]

theorem flatten_length_mod (k : ℕ) :
    ∀ c : List (List Byte), (∀ e ∈ c, e.length = k) →
      c.flatten.length % k = 0 := by
  intro c
  induction c with
  | nil => intro _; simp
  | cons e c ih =>
    intro hlen
    have he : e.length = k := hlen e (by simp)
    have hc := ih (fun e' h' => hlen e' (by simp [h']))
    simp only [List.flatten_cons, List.length_append, he]
    rw [Nat.add_mod_left, hc]

theorem deserialize_strs_cons (s : List Byte) (rest : List Byte)
    (hs : s.length < 2 ^ 32) :
    deserialize_value_strs (leBytes4 s.length ++ (s ++ rest))
      = match deserialize_value_strs rest with
        | .error e => .error e
        | .ok tail => .ok (s :: tail) := by
  obtain ⟨b0, b1, b2, b3, hb⟩ :
      ∃ b0 b1 b2 b3, leBytes4 s.length = [b0, b1, b2, b3] :=
    ⟨_, _, _, _, rfl⟩
  have hlen : leVal4 b0 b1 b2 b3 = s.length := by
    rw [leVal4_of_leBytes4 _ _ _ _ _ hb, Nat.mod_eq_of_lt hs]
  rw [hb]
  show deserialize_value_strs (b0 :: b1 :: b2 :: b3 :: (s ++ rest)) = _
  rw [deserialize_value_strs]
  simp only [hlen]
  have hnlt : ¬ (s ++ rest).length < s.length := by
    simp only [List.length_append]
    omega
  simp only [hnlt, dif_neg, not_false_iff,
    List.drop_left' (rfl : s.length = s.length),
    List.take_left' (rfl : s.length = s.length)]

/-- C1, string-container case: encoding then decoding a container of
strings returns the original container, provided every element is
shorter than `2^32` bytes (the `uint32_t` length prefix). -/
theorem roundtrip_strs (c : List (List Byte))
    (hc : ∀ s ∈ c, s.length < 2 ^ 32) :
    deserialize_value_strs (serialize_value_strs c) = .ok c := by
  induction c with
  | nil => simp [serialize_value_strs, deserialize_value_strs]
  | cons s c ih =>
    have hs : s.length < 2 ^ 32 := hc s (by simp)
    have hrest := ih (fun s' h' => hc s' (by simp [h']))
    have hser : serialize_value_strs (s :: c)
        = leBytes4 s.length ++ (s ++ serialize_value_strs c) := by
      simp [serialize_value_strs]
    rw [hser, deserialize_strs_cons s _ hs, hrest]

theorem deserialize_strs_exact :
    ∀ (n : ℕ) (buf : List Byte), buf.length ≤ n →
      ∀ strs, deserialize_value_strs buf = .ok strs →
        serialize_value_strs strs = buf := by
  intro n
  induction n with
  | zero =>
    intro buf hlen strs hok
    have hnil : buf = [] := List.eq_nil_of_length_eq_zero (by omega)
    subst hnil
    rw [deserialize_value_strs] at hok
    cases hok
    rfl
  | succ n ih =>
    intro buf hlen strs hok
    match buf with
    | [] =>
      rw [deserialize_value_strs] at hok
      cases hok
      rfl
    | [_] | [_, _] | [_, _, _] =>
      rw [deserialize_value_strs] at hok
      cases hok
    | b0 :: b1 :: b2 :: b3 :: rest =>
      rw [deserialize_value_strs] at hok
      by_cases hlt : rest.length < leVal4 b0 b1 b2 b3
      · rw [dif_pos hlt] at hok
        cases hok
      · rw [dif_neg hlt] at hok
        cases htail : deserialize_value_strs (rest.drop (leVal4 b0 b1 b2 b3)) with
        | error e => rw [htail] at hok; cases hok
        | ok tail =>
          rw [htail] at hok
          cases hok
          have hrec : serialize_value_strs tail
              = rest.drop (leVal4 b0 b1 b2 b3) := by
            apply ih _ _ _ htail
            simp only [List.length_drop]
            simp only [List.length_cons] at hlen
            omega
          have hser : serialize_value_strs (rest.take (leVal4 b0 b1 b2 b3) :: tail)
              = leBytes4 (rest.take (leVal4 b0 b1 b2 b3)).length
                  ++ (rest.take (leVal4 b0 b1 b2 b3) ++ serialize_value_strs tail) := by
            simp [serialize_value_strs]
          rw [hser, hrec]
          have htlen : (rest.take (leVal4 b0 b1 b2 b3)).length
              = leVal4 b0 b1 b2 b3 := by
            simp only [List.length_take]
            omega
          rw [htlen, leBytes4_leVal4, List.take_append_drop]
          rfl

/-- C6: decoding a byte buffer as a container of length-prefixed strings
never returns a truncated or garbage result: whenever the walk succeeds,
the buffer was consumed exactly and was precisely the encoding of the
returned container (every buffer with an overflowing embedded length
field or trailing bytes therefore yields a data-format error, since
`deserialize_value_strs` is total into `Except`). -/
theorem strs_decode_exact (buf : List Byte) (strs : List (List Byte))
    (hok : deserialize_value_strs buf = .ok strs) :
    serialize_value_strs strs = buf :=
  deserialize_strs_exact buf.length buf le_rfl strs hok

/-- Witness for C6 at a concrete input: the buffer encoding
["ab", ""] decodes successfully and re-encodes to itself. -/
theorem strs_decode_exact_witness :
    serialize_value_strs [[97, 98], []]
      = [2, 0, 0, 0, 97, 98, 0, 0, 0, 0] :=
  strs_decode_exact [2, 0, 0, 0, 97, 98, 0, 0, 0, 0] [[97, 98], []]
    (by
      rw [deserialize_value_strs]
      norm_num [leVal4]
      rw [deserialize_value_strs]
      norm_num [leVal4]
      rw [deserialize_value_strs])

/-- C1: the serialization round-trip law. For every supported value
category, `deserialize_value` applied to `serialize_value` of a value
returns the value: strings (raw bytes), byte vectors (raw bytes),
trivially copyable values of size `k` (object representation with exact
length check), containers of trivially copyable elements of size `k > 0`
whose elements all have `sizeof = k`, containers of strings each shorter
than the `2^32` bound of the `uint32_t` length prefix, and
`to_bytes`/`from_bytes` types whose own contract round-trips. -/
theorem serialize_roundtrip :
    (∀ s : List Byte,
      deserialize_value_string (serialize_value_string s) = s)
    ∧ (∀ v : List Byte,
      deserialize_value_bytes (serialize_value_bytes v) = v)
    ∧ (∀ (k : ℕ) (v : List Byte), v.length = k →
      deserialize_value_trivial k (serialize_value_trivial v) = .ok v)
    ∧ (∀ (k : ℕ) (c : List (List Byte)), 0 < k →
      (∀ e ∈ c, e.length = k) →
      deserialize_value_elems k (serialize_value_elems c) = .ok c)
    ∧ (∀ c : List (List Byte), (∀ s ∈ c, s.length < 2 ^ 32) →
      deserialize_value_strs (serialize_value_strs c) = .ok c)
    ∧ (∀ (α : Type) (toB : α → List Byte)
        (fromB : List Byte → Except DeserializeError α),
      (∀ v, fromB (toB v) = .ok v) →
      ∀ v, deserialize_value_fb fromB (serialize_value_tb toB v) = .ok v) := by
  refine ⟨fun s => rfl, fun v => rfl, ?_, ?_, roundtrip_strs, ?_⟩
  · intro k v hv
    simp [deserialize_value_trivial, serialize_value_trivial, hv]
  · intro k c hk hc
    unfold deserialize_value_elems serialize_value_elems
    rw [if_neg (not_ne_iff.mpr (flatten_length_mod k c hc)),
      chunks_flatten k hk c hc]
  · intro α toB fromB hinv v
    simp [deserialize_value_fb, serialize_value_tb, hinv]

/-- Witness for C1 at concrete inputs: one value per category. -/
theorem serialize_roundtrip_witness :
    deserialize_value_string (serialize_value_string [104, 105]) = [104, 105]
    ∧ deserialize_value_bytes (serialize_value_bytes [0, 255]) = [0, 255]
    ∧ deserialize_value_trivial 4 (serialize_value_trivial [1, 2, 3, 4])
        = .ok [1, 2, 3, 4]
    ∧ deserialize_value_elems 2 (serialize_value_elems [[1, 2], [3, 4]])
        = .ok [[1, 2], [3, 4]]
    ∧ deserialize_value_strs (serialize_value_strs [[97], [98, 99]])
        = .ok [[97], [98, 99]]
    ∧ deserialize_value_fb
        (fun buf => match buf with
          | [v] => .ok v
          | _ => .error .sizeMismatch)
        (serialize_value_tb (fun (v : Byte) => [v]) 7) = .ok 7 :=
  ⟨serialize_roundtrip.1 [104, 105],
   serialize_roundtrip.2.1 [0, 255],
   serialize_roundtrip.2.2.1 4 [1, 2, 3, 4] (by decide),
   serialize_roundtrip.2.2.2.1 2 [[1, 2], [3, 4]] (by decide) (by decide),
   serialize_roundtrip.2.2.2.2.1 [[97], [98, 99]] (by decide),
   serialize_roundtrip.2.2.2.2.2 Byte (fun v => [v])
     (fun buf => match buf with
       | [v] => .ok v
       | _ => .error .sizeMismatch)
     (fun v => rfl) 7⟩

section Table

/-!
Table model.  A named MDBX sub-table holds at most one value per key, so
its observable content is an association list (the pair order carries
the cursor's iteration order; keys are pairwise distinct in any table
the engine produces, but none of the results below need that
invariant).  The engine point operations consumed by
`KeyValueTable.hpp` are modelled per the interface the library relies
on: `mdbx_get` finds the stored value of a key, `mdbx_put` with
`MDBX_UPSERT` replaces in place or appends, `mdbx_put` with
`MDBX_NOOVERWRITE` returns `MDBX_KEYEXIST` and changes nothing when the
key is present, and the cursor walk with `mdbx_cursor_del` in
`db_reconcile` visits every stored pair once, deleting the current pair
when instructed.
-/

variable {K V : Type} [DecidableEq K]

/-- The engine's `mdbx_get`: the value stored under a key, if any. -/
def dbLookup : List (K × V) → K → Option V
  | [], _ => none
  | p :: t, k => if p.1 = k then some p.2 else dbLookup t k

/-- Key presence in the table (`mdbx_get` succeeding vs `MDBX_NOTFOUND`,
the test `db_contains` performs). -/
def dbContains : List (K × V) → K → Bool
  | [], _ => false
  | p :: t, k => p.1 = k || dbContains t k

/-- The engine's `mdbx_put` with `MDBX_UPSERT`: replace the stored value
in place when the key exists, otherwise append the new pair. -/
def dbUpsert (t : List (K × V)) (k : K) (v : V) : List (K × V) :=
  if dbContains t k then t.map fun p => if p.1 = k then (k, v) else p
  else t ++ [(k, v)]

/-- Engine return codes observed by `KeyValueTable.hpp` from `mdbx_put`
with `MDBX_NOOVERWRITE`. -/
inductive PutRc where
  | success : PutRc
  | keyexist : PutRc
deriving DecidableEq, Repr

/-- The engine's `mdbx_put` with `MDBX_NOOVERWRITE`: returns
`MDBX_KEYEXIST` without modifying anything when the key is present,
otherwise inserts and returns `MDBX_SUCCESS`. -/
def dbPutNoOverwrite (t : List (K × V)) (k : K) (v : V) :
    PutRc × List (K × V) :=
  if dbContains t k then (.keyexist, t)
  else (.success, t ++ [(k, v)])

/-- `KeyValueTable::db_insert_if_absent`: issues the no-overwrite put and
maps `MDBX_SUCCESS` to `true` and `MDBX_KEYEXIST` to `false`; key
existence is never surfaced as an error. -/
def db_insert_if_absent (t : List (K × V)) (k : K) (v : V) :
    Bool × List (K × V) :=
  match dbPutNoOverwrite t k v with
  | (.success, t') => (true, t')
  | (.keyexist, t') => (false, t')

/-- `KeyValueTable::db_insert_or_assign`: upsert put. -/
def db_insert_or_assign (t : List (K × V)) (k : K) (v : V) : List (K × V) :=
  dbUpsert t k v

/-- `KeyValueTable::db_reconcile`: phase 1 upserts every container pair
in iteration order while collecting the container's key set `new_keys`;
phase 2 walks a cursor over all stored pairs and deletes those whose key
is not in `new_keys`. -/
def db_reconcile (t : List (K × V)) (c : List (K × V)) : List (K × V) :=
  let afterPut := c.foldl (fun acc p => dbUpsert acc p.1 p.2) t
  afterPut.filter fun p => (c.map Prod.fst).contains p.1

/-- `KeyValueTable::AssignmentProxy::operator ValueT` (the implicit read
conversion of `table[key]`): `find` the key; on a hit return the stored
value, on a miss insert a default-constructed value through
`insert_or_assign` and return that default. -/
def proxy_read (t : List (K × V)) (k : K) (defaultV : V) :
    V × List (K × V) :=
  match dbLookup t k with
  | some v => (v, t)
  | none => (defaultV, db_insert_or_assign t k defaultV)

theorem dbContains_iff_dbLookup (t : List (K × V)) (k : K) :
    dbContains t k = true ↔ (dbLookup t k).isSome := by
  induction t with
  | nil => simp [dbContains, dbLookup]
  | cons p t ih =>
    by_cases hp : p.1 = k
    · simp [dbContains, dbLookup, hp]
    · simp [dbContains, dbLookup, hp, ih]

theorem dbLookup_dbUpsert_self (t : List (K × V)) (k : K) (v : V) :
    dbLookup (dbUpsert t k v) k = some v := by
  unfold dbUpsert
  by_cases h : dbContains t k
  · rw [if_pos h]
    induction t with
    | nil => simp [dbContains] at h
    | cons p t ih =>
      by_cases hp : p.1 = k
      · simp [dbLookup, hp]
      · have ht : dbContains t k = true := by
          simpa [dbContains, hp] using h
        simpa [dbLookup, hp] using ih ht
  · rw [if_neg h]
    induction t with
    | nil => simp [dbLookup]
    | cons p t ih =>
      have hp : ¬ p.1 = k := by
        intro he
        simp [dbContains, he] at h
      have ht : ¬ dbContains t k = true := by
        intro he
        simp [dbContains, he] at h
      simpa [dbLookup, hp] using ih ht

theorem dbLookup_dbUpsert_other (t : List (K × V)) (k k' : K) (v : V)
    (hne : k' ≠ k) :
    dbLookup (dbUpsert t k v) k' = dbLookup t k' := by
  unfold dbUpsert
  by_cases h : dbContains t k
  · rw [if_pos h]
    clear h
    induction t with
    | nil => simp
    | cons p t ih =>
      by_cases hp : p.1 = k
      · have hk : ¬ (k = k') := fun hh => hne hh.symm
        have hpk : ¬ (p.1 = k') := by rw [hp]; exact hk
        simp [dbLookup, hp, hk, hpk, ih]
      · by_cases hq : p.1 = k'
        · simp [dbLookup, hp, hq, hne]
        · simp [dbLookup, hp, hq, ih]
  · rw [if_neg h]
    clear h
    induction t with
    | nil =>
      have hk : ¬ (k = k') := fun hh => hne hh.symm
      simp [dbLookup, hk]
    | cons p t ih =>
      by_cases hq : p.1 = k'
      · simp [dbLookup, hq]
      · simp [dbLookup, hq, ih]

theorem dbContains_dbUpsert (t : List (K × V)) (k k' : K) (v : V) :
    dbContains (dbUpsert t k v) k' = (decide (k' = k) || dbContains t k') := by
  by_cases hk : k' = k
  · subst hk
    have hlk := dbLookup_dbUpsert_self t k' v
    have hs := (dbContains_iff_dbLookup (dbUpsert t k' v) k').mpr
      (by simp [hlk])
    simp [hs]
  · have hlk := dbLookup_dbUpsert_other t k k' v hk
    have h1 : dbContains (dbUpsert t k v) k' = dbContains t k' := by
      have ha := dbContains_iff_dbLookup (dbUpsert t k v) k'
      have hb := dbContains_iff_dbLookup t k'
      rw [hlk] at ha
      cases hcc : dbContains (dbUpsert t k v) k' <;>
        cases hc : dbContains t k' <;> simp_all
    simp [hk, h1]

/-- The value the container supplies for a key: the value of the last
pair with that key in iteration order (the upsert loop of
`db_reconcile` makes later pairs overwrite earlier ones). -/
def lastVal : List (K × V) → K → Option V
  | [], _ => none
  | p :: c, k =>
    match lastVal c k with
    | some v => some v
    | none => if p.1 = k then some p.2 else none

theorem lastVal_eq_none_of_not_mem (c : List (K × V)) (k : K)
    (h : k ∉ c.map Prod.fst) : lastVal c k = none := by
  induction c with
  | nil => rfl
  | cons p c ih =>
    simp only [List.map_cons, List.mem_cons, not_or] at h
    have hp : ¬ p.1 = k := fun hh => h.1 hh.symm
    simp [lastVal, ih h.2, hp]

theorem lastVal_of_mem_nodup (c : List (K × V)) (k : K) (v : V)
    (hnd : (c.map Prod.fst).Nodup) (hmem : (k, v) ∈ c) :
    lastVal c k = some v := by
  induction c with
  | nil => cases hmem
  | cons p c ih =>
    simp only [List.map_cons, List.nodup_cons] at hnd
    rcases List.mem_cons.mp hmem with rfl | hmem'
    · have : k ∉ c.map Prod.fst := by simpa using hnd.1
      simp [lastVal, lastVal_eq_none_of_not_mem c k this]
    · simp [lastVal, ih hnd.2 hmem']

theorem dbLookup_foldl_upsert (c : List (K × V)) :
    ∀ (t : List (K × V)) (k : K),
      dbLookup (c.foldl (fun acc p => dbUpsert acc p.1 p.2) t) k
        = match lastVal c k with
          | some v => some v
          | none => dbLookup t k := by
  induction c with
  | nil => intro t k; rfl
  | cons p c ih =>
    intro t k
    rw [List.foldl_cons, ih]
    by_cases hl : (lastVal c k).isSome
    · obtain ⟨v, hv⟩ := Option.isSome_iff_exists.mp hl
      simp [lastVal, hv]
    · have hv : lastVal c k = none := Option.not_isSome_iff_eq_none.mp hl
      by_cases hp : p.1 = k
      · subst hp
        simp [lastVal, hv, dbLookup_dbUpsert_self]
      · have hne : k ≠ p.1 := fun hh => hp hh.symm
        simp [lastVal, hv, hp, dbLookup_dbUpsert_other t p.1 k p.2 hne]

theorem dbContains_foldl_upsert (c : List (K × V)) :
    ∀ (t : List (K × V)) (k : K),
      dbContains (c.foldl (fun acc p => dbUpsert acc p.1 p.2) t) k
        = ((c.map Prod.fst).contains k || dbContains t k) := by
  induction c with
  | nil => intro t k; simp
  | cons p c ih =>
    intro t k
    rw [List.foldl_cons, ih, dbContains_dbUpsert]
    by_cases hp : k = p.1
    · simp [hp, List.contains_cons]
    · simp [hp, List.contains_cons, beq_eq_false_iff_ne.mpr hp]

theorem dbLookup_filter_keys (f : K → Bool) (t : List (K × V)) (k : K) :
    dbLookup (t.filter fun p => f p.1) k
      = if f k then dbLookup t k else none := by
  induction t with
  | nil => simp [dbLookup]
  | cons p t ih =>
    by_cases hp : p.1 = k
    · subst hp
      cases hf : f p.1 <;> simp [dbLookup, hf, ih, List.filter_cons]
    · cases hf : f p.1 <;>
        simp [dbLookup, hf, hp, ih, List.filter_cons]

theorem dbContains_filter_keys (f : K → Bool) (t : List (K × V)) (k : K) :
    dbContains (t.filter fun p => f p.1) k
      = (f k && dbContains t k) := by
  have h1 := dbLookup_filter_keys f t k
  have ha := dbContains_iff_dbLookup (t.filter fun p => f p.1) k
  have hb := dbContains_iff_dbLookup t k
  cases hf : f k with
  | true =>
    rw [hf, if_pos rfl] at h1
    rw [h1] at ha
    cases hcc : dbContains (t.filter fun p => f p.1) k <;>
      cases hc : dbContains t k <;> simp_all
  | false =>
    rw [hf, if_neg (by simp)] at h1
    rw [h1] at ha
    simp only [hf, Bool.false_and]
    cases hcc : dbContains (t.filter fun p => f p.1) k <;> simp_all

/-- C2: reconcile correctness.  After `db_reconcile(container)` the
stored key set is exactly the container's key set, and (for a container
without duplicate keys, e.g. one originating from a `std::map`) each key
holds exactly the value the container supplies for it; keys absent from
the container hold nothing. -/
theorem db_reconcile_spec (t c : List (K × V)) :
    (∀ k, dbContains (db_reconcile t c) k = true ↔ k ∈ c.map Prod.fst)
    ∧ ((c.map Prod.fst).Nodup →
        ∀ k v, (k, v) ∈ c → dbLookup (db_reconcile t c) k = some v)
    ∧ (∀ k, k ∉ c.map Prod.fst → dbLookup (db_reconcile t c) k = none) := by
  refine ⟨fun k => ?_, fun hnd k v hmem => ?_, fun k hk => ?_⟩
  · unfold db_reconcile
    rw [dbContains_filter_keys, dbContains_foldl_upsert]
    by_cases hk : k ∈ c.map Prod.fst
    · simp [hk]
    · simp [hk]
  · unfold db_reconcile
    rw [dbLookup_filter_keys]
    have hk : k ∈ c.map Prod.fst :=
      List.mem_map.mpr ⟨(k, v), hmem, rfl⟩
    rw [if_pos (by simpa using hk), dbLookup_foldl_upsert,
      lastVal_of_mem_nodup c k v hnd hmem]
  · unfold db_reconcile
    rw [dbLookup_filter_keys, if_neg (by simpa using hk)]

/-- Witness for C2 at the spec's concrete example: a table holding keys
1, 2, 3 reconciled with the container [(2, "x"), (4, "y")] stores
exactly keys 2 and 4 with values "x" and "y". -/
theorem db_reconcile_spec_witness :
    (dbContains (db_reconcile [(1, "a"), (2, "b"), (3, "c")]
        [(2, "x"), (4, "y")]) 2 = true ↔ (2 : ℕ) ∈ [2, 4])
    ∧ dbLookup (db_reconcile [(1, "a"), (2, "b"), (3, "c")]
        [(2, "x"), (4, "y")]) 2 = some "x"
    ∧ dbLookup (db_reconcile [(1, "a"), (2, "b"), (3, "c")]
        [(2, "x"), (4, "y")]) 4 = some "y"
    ∧ dbLookup (db_reconcile [(1, "a"), (2, "b"), (3, "c")]
        [(2, "x"), (4, "y")]) 1 = none
    ∧ dbLookup (db_reconcile [(1, "a"), (2, "b"), (3, "c")]
        [(2, "x"), (4, "y")]) 3 = none := by
  have h := db_reconcile_spec (K := ℕ) (V := String)
    [(1, "a"), (2, "b"), (3, "c")] [(2, "x"), (4, "y")]
  refine ⟨by simpa using h.1 2, ?_, ?_, ?_, ?_⟩
  · exact h.2.1 (by decide) 2 "x" (by simp)
  · exact h.2.1 (by decide) 4 "y" (by simp)
  · exact h.2.2 1 (by decide)
  · exact h.2.2 3 (by decide)

/-- C9: insert-if-absent semantics.  When the key is present the call
returns `false` and the whole table (hence the stored value of the key
and of every other key) is unchanged; when the key is absent the call
returns `true`, stores the pair, and leaves every other key unchanged.
In both cases the result is an ordinary boolean, never an error. -/
theorem db_insert_if_absent_spec (t : List (K × V)) (k : K) (v : V) :
    (dbContains t k = true → db_insert_if_absent t k v = (false, t))
    ∧ (dbContains t k = false →
        (db_insert_if_absent t k v).1 = true
        ∧ dbLookup (db_insert_if_absent t k v).2 k = some v
        ∧ ∀ k', k' ≠ k →
            dbLookup (db_insert_if_absent t k v).2 k' = dbLookup t k') := by
  constructor
  · intro h
    unfold db_insert_if_absent dbPutNoOverwrite
    rw [if_pos h]
  · intro h
    unfold db_insert_if_absent dbPutNoOverwrite
    rw [if_neg (by simp [h])]
    have happ : t ++ [(k, v)] = dbUpsert t k v := by
      unfold dbUpsert
      rw [if_neg (by simp [h])]
    refine ⟨rfl, ?_, fun k' hne => ?_⟩
    · simpa [happ] using dbLookup_dbUpsert_self t k v
    · simpa [happ] using dbLookup_dbUpsert_other t k k' v hne

/-- Witness for C9 at concrete inputs: inserting key 1 into a table that
has it returns false and changes nothing; inserting key 2 succeeds. -/
theorem db_insert_if_absent_spec_witness :
    db_insert_if_absent [(1, 10), (3, 30)] 1 (99 : ℕ) = (false, [(1, 10), (3, 30)])
    ∧ (db_insert_if_absent [(1, 10), (3, 30)] 2 (20 : ℕ)).1 = true
    ∧ dbLookup (db_insert_if_absent [(1, 10), (3, 30)] 2 (20 : ℕ)).2 2 = some 20
    ∧ dbLookup (db_insert_if_absent [(1, 10), (3, 30)] 2 (20 : ℕ)).2 3 = some 30 :=
  ⟨(db_insert_if_absent_spec (K := ℕ) [(1, 10), (3, 30)] 1 99).1 (by decide),
   ((db_insert_if_absent_spec (K := ℕ) [(1, 10), (3, 30)] 2 20).2 (by decide)).1,
   ((db_insert_if_absent_spec (K := ℕ) [(1, 10), (3, 30)] 2 20).2 (by decide)).2.1,
   by
    have h := ((db_insert_if_absent_spec (K := ℕ)
      [(1, 10), (3, 30)] 2 20).2 (by decide)).2.2 3 (by decide)
    rw [h]
    decide⟩

/-- C10: reading `table[key]` through the proxy mutates the table on a
miss: when the key is absent, the implicit conversion returns the
default-constructed value and inserts it into the table, so the key is
stored afterwards — a pure read changes the stored key set. -/
theorem proxy_read_miss (t : List (K × V)) (k : K) (defaultV : V)
    (h : dbLookup t k = none) :
    (proxy_read t k defaultV).1 = defaultV
    ∧ dbLookup (proxy_read t k defaultV).2 k = some defaultV
    ∧ dbContains (proxy_read t k defaultV).2 k = true
    ∧ dbContains t k = false := by
  unfold proxy_read
  rw [h]
  refine ⟨rfl, ?_, ?_, ?_⟩
  · simpa [db_insert_or_assign] using dbLookup_dbUpsert_self t k defaultV
  · rw [dbContains_iff_dbLookup]
    simp [db_insert_or_assign, dbLookup_dbUpsert_self t k defaultV]
  · cases hc : dbContains t k with
    | false => rfl
    | true =>
      have := (dbContains_iff_dbLookup t k).mp hc
      rw [h] at this
      cases this

/-- Witness for C10 at a concrete input: key 5 is absent, the proxy read
returns 0 and afterwards key 5 is stored with value 0. -/
theorem proxy_read_miss_witness :
    (proxy_read [(1, 10)] 5 (0 : ℕ)).1 = 0
    ∧ dbLookup (proxy_read [(1, 10)] 5 (0 : ℕ)).2 5 = some 0
    ∧ dbContains (proxy_read [(1, 10)] 5 (0 : ℕ)).2 5 = true
    ∧ dbContains [((1 : ℕ), (10 : ℕ))] 5 = false := by
  have h := proxy_read_miss (K := ℕ) [(1, 10)] 5 0 (by decide)
  exact ⟨h.1, h.2.1, h.2.2.1, h.2.2.2⟩

end Table

section Transactions

/-!
Transaction model, from `Transaction.ipp` and the `TransactionTracker`.
One calling thread is modelled; engine calls (`mdbx_txn_begin`,
`mdbx_txn_renew`, `mdbx_txn_reset`, `mdbx_txn_commit`, `mdbx_txn_abort`)
are assumed to succeed, matching the claims, which are about successful
completion.  Handles are numbered by `ℕ`.
-/

/-- `TransactionMode` from `Transaction.hpp`. -/
inductive TransactionMode where
  | READ_ONLY : TransactionMode
  | WRITABLE : TransactionMode
deriving DecidableEq, Repr

/-- The fields of a `Transaction` object. -/
structure TransactionSt where
  m_txn : Option ℕ
  m_started : Bool
  m_mode : TransactionMode
deriving DecidableEq, Repr

/-- The calling thread's entry in the `TransactionTracker` registry
(`m_thread_txns[this_thread::get_id()]`); `none` means no entry. -/
structure Registry where
  bound : Option ℕ
deriving DecidableEq, Repr

/-- Usage errors thrown by the transaction layer. -/
inductive TxnError where
  /-- MdbxException: no active transaction to commit/rollback. -/
  | noActiveTransaction : TxnError
  /-- std::logic_error: transaction already started for this thread. -/
  | alreadyStarted : TxnError
  /-- std::logic_error: no transaction for this thread. -/
  | noTransactionForThread : TxnError
deriving DecidableEq, Repr

/-- `Transaction::begin()`: no-op when already started; renews the kept
handle for READ_ONLY when one exists, otherwise opens a fresh engine
transaction (`fresh` names the new handle); then binds the handle in the
registry and sets the started flag. -/
def Transaction.begin (s : TransactionSt) (r : Registry) (fresh : ℕ) :
    TransactionSt × Registry :=
  if s.m_started then (s, r)
  else
    let h := match s.m_txn, s.m_mode with
      | some h0, .READ_ONLY => h0
      | _, _ => fresh
    (⟨some h, true, s.m_mode⟩, ⟨some h⟩)

/-- `Transaction::commit()` on the success path of every engine call:
errors unless a started handle exists; READ_ONLY resets the handle in
place (kept for a future renew) and clears the started flag; WRITABLE
commits, drops the handle and un-registers from the registry. -/
def Transaction.commit (s : TransactionSt) (r : Registry) :
    Except TxnError (TransactionSt × Registry) :=
  if s.m_txn.isNone || !s.m_started then .error .noActiveTransaction
  else
    match s.m_mode with
    | .READ_ONLY => .ok (⟨s.m_txn, false, s.m_mode⟩, r)
    | .WRITABLE => .ok (⟨none, false, s.m_mode⟩, ⟨none⟩)

/-- `Transaction::rollback()` on the success path: symmetric to commit
(READ_ONLY resets in place, WRITABLE aborts, drops and un-registers). -/
def Transaction.rollback (s : TransactionSt) (r : Registry) :
    Except TxnError (TransactionSt × Registry) :=
  if s.m_txn.isNone || !s.m_started then .error .noActiveTransaction
  else
    match s.m_mode with
    | .READ_ONLY => .ok (⟨s.m_txn, false, s.m_mode⟩, r)
    | .WRITABLE => .ok (⟨s.m_txn, false, s.m_mode⟩, ⟨none⟩)

/-- `Transaction::~Transaction()`: always un-registers, then aborts and
drops any kept handle. -/
def Transaction.destruct (s : TransactionSt) (_r : Registry) :
    TransactionSt × Registry :=
  (⟨none, s.m_started, s.m_mode⟩, ⟨none⟩)

/-- Counterexample to C3: a READ_ONLY transaction begun from fresh state
(handle 7 bound in the registry) commits successfully, yet the registry
still holds the thread's entry — `Transaction::commit` only un-registers
in the WRITABLE branch. -/
theorem commit_read_only_keeps_registry_entry :
    Transaction.begin ⟨none, false, .READ_ONLY⟩ ⟨none⟩ 7
      = (⟨some 7, true, .READ_ONLY⟩, ⟨some 7⟩)
    ∧ Transaction.commit ⟨some 7, true, .READ_ONLY⟩ ⟨some 7⟩
      = .ok (⟨some 7, false, .READ_ONLY⟩, ⟨some 7⟩)
    ∧ (⟨some 7⟩ : Registry).bound ≠ none := by
  refine ⟨rfl, rfl, ?_⟩
  simp

/-- C3 (amended): after a successful `commit()` of a started WRITABLE
transaction the registry holds no entry for the thread; after a
successful `commit()` of a started READ_ONLY transaction the handle is
reset but the registry entry is left untouched (it is removed only when
the `Transaction` object is destroyed, whose destructor always
un-registers). -/
theorem commit_unregisters_writable_only (s : TransactionSt) (r : Registry)
    (hh : s.m_txn.isSome) (hs : s.m_started = true) :
    (s.m_mode = .WRITABLE →
      Transaction.commit s r = .ok (⟨none, false, s.m_mode⟩, ⟨none⟩))
    ∧ (s.m_mode = .READ_ONLY →
      Transaction.commit s r = .ok (⟨s.m_txn, false, s.m_mode⟩, r))
    ∧ (Transaction.destruct s r).2.bound = none := by
  have hcond : (s.m_txn.isNone || !s.m_started) = false := by
    rw [hs]
    cases ht : s.m_txn with
    | none => rw [ht] at hh; cases hh
    | some h => simp
  refine ⟨fun hm => ?_, fun hm => ?_, rfl⟩
  · unfold Transaction.commit
    rw [hcond, hm]
    rfl
  · unfold Transaction.commit
    rw [hcond, hm]
    rfl

/-- Witness for the amended C3 at concrete states: handle 3 writable and
handle 4 read-only. -/
theorem commit_unregisters_writable_only_witness :
    Transaction.commit ⟨some 3, true, .WRITABLE⟩ ⟨some 3⟩
      = .ok (⟨none, false, .WRITABLE⟩, ⟨none⟩)
    ∧ Transaction.commit ⟨some 4, true, .READ_ONLY⟩ ⟨some 4⟩
      = .ok (⟨some 4, false, .READ_ONLY⟩, ⟨some 4⟩) :=
  ⟨(commit_unregisters_writable_only ⟨some 3, true, .WRITABLE⟩ ⟨some 3⟩
      (by simp) rfl).1 rfl,
   (commit_unregisters_writable_only ⟨some 4, true, .READ_ONLY⟩ ⟨some 4⟩
      (by simp) rfl).2.1 rfl⟩

/-!
Manual thread-keyed transactions, from `Connection.ipp`.  The
`m_transactions` map is modelled as a function from thread ids to the
optional transaction object registered for that thread.
-/

/-- Thread identities (`std::thread::id`). -/
abbrev ThreadId := ℕ

/-- The `Connection::m_transactions` map. -/
def MTrans := ThreadId → Option ℕ

/-- `Connection::begin(mode)`: throws the already-started logic error
when the calling thread has an entry (before touching the map);
otherwise creates a transaction and registers it under the thread. -/
def Connection.begin (st : MTrans) (tid : ThreadId) (fresh : ℕ) :
    MTrans × Option TxnError :=
  if (st tid).isSome then (st, some .alreadyStarted)
  else ((fun t => if t = tid then some fresh else st t), none)

/-- `Connection::commit()` (success path of the inner commit): throws
the no-transaction logic error when the thread has no entry; otherwise
commits the registered transaction and erases the entry. -/
def Connection.commit (st : MTrans) (tid : ThreadId) :
    MTrans × Option TxnError :=
  if (st tid).isNone then (st, some .noTransactionForThread)
  else ((fun t => if t = tid then none else st t), none)

/-- `Connection::rollback()` (success path of the inner rollback):
throws when the thread has no entry; otherwise rolls the registered
transaction back and erases the entry. -/
def Connection.rollback (st : MTrans) (tid : ThreadId) :
    MTrans × Option TxnError :=
  if (st tid).isNone then (st, some .noTransactionForThread)
  else ((fun t => if t = tid then none else st t), none)

/-- C4: at most one manual transaction per thread.  A second `begin()`
on a thread with an open transaction raises the usage error and leaves
the map (hence the registered transaction) unchanged; `begin()` on a
free thread succeeds and registers; after a successful `commit()` the
same thread's next `begin()` succeeds; `commit()` and `rollback()` on a
thread with no open transaction raise the usage error and change
nothing. -/
theorem connection_begin_commit_spec (st : MTrans) (tid : ThreadId)
    (f1 f2 : ℕ) :
    ((st tid).isSome →
      Connection.begin st tid f1 = (st, some .alreadyStarted))
    ∧ ((st tid).isNone →
      (Connection.begin st tid f1).2 = none
      ∧ (Connection.begin st tid f1).1 tid = some f1)
    ∧ ((st tid).isSome →
      (Connection.commit st tid).2 = none
      ∧ (Connection.begin (Connection.commit st tid).1 tid f2).2 = none)
    ∧ ((st tid).isNone →
      Connection.commit st tid = (st, some .noTransactionForThread)
      ∧ Connection.rollback st tid = (st, some .noTransactionForThread)) := by
  refine ⟨fun h => ?_, fun h => ?_, fun h => ?_, fun h => ?_⟩
  · unfold Connection.begin
    rw [if_pos h]
  · unfold Connection.begin
    rw [if_neg (by simp [Option.isNone_iff_eq_none.mp h])]
    exact ⟨rfl, by simp⟩
  · unfold Connection.commit Connection.begin
    rw [if_neg (by simpa [Option.isNone_iff_eq_none] using
      Option.isSome_iff_ne_none.mp h)]
    refine ⟨rfl, ?_⟩
    simp
  · unfold Connection.commit Connection.rollback
    rw [if_pos h]
    exact ⟨rfl, rfl⟩

/-- Witness for C4 at a concrete map: thread 0 holds transaction 5,
thread 1 holds nothing. -/
theorem connection_begin_commit_spec_witness :
    (Connection.begin (fun t => if t = 0 then some 5 else none) 0 9).2
      = some .alreadyStarted
    ∧ (Connection.begin (fun t => if t = 0 then some 5 else none) 1 9).2
      = none
    ∧ (Connection.commit (fun t => if t = 0 then some 5 else none) 0).2
      = none
    ∧ (Connection.begin
        (Connection.commit (fun t => if t = 0 then some 5 else none) 0).1
        0 9).2 = none
    ∧ (Connection.commit (fun t => if t = 0 then some 5 else none) 1).2
      = some .noTransactionForThread := by
  have h0 := connection_begin_commit_spec
    (fun t => if t = 0 then some 5 else none) 0 9 9
  have h1 := connection_begin_commit_spec
    (fun t => if t = 0 then some 5 else none) 1 9 9
  refine ⟨?_, (h1.2.1 (by simp)).1, (h0.2.2.1 (by simp)).1,
    (h0.2.2.1 (by simp)).2, ?_⟩
  · rw [h0.1 (by simp)]
  · rw [(h1.2.2.2 (by simp)).1]

end Transactions

section ScopedTransaction

/-!
The scoped-transaction wrapper `KeyValueTable::with_transaction`.  When
no explicit handle is passed and the thread has no bound transaction, it
opens a guard transaction, runs the operation body, commits on success,
and on any exception rolls the guard back and rethrows.  The durable
table state is `σ`; the body is a function that either produces the new
state or fails, and by the engine's transaction atomicity a rollback
discards every write staged inside the guard transaction.
-/

variable {σ ε : Type}

/-- Outcome of `with_transaction`: the propagated result, the durable
(committed) state, and what happened to the scoped guard transaction —
`some true` committed, `some false` rolled back, `none` when an
explicit or thread-bound transaction was reused (so neither committed
nor rolled back here). -/
def with_transaction (explicitTxn threadTxn : Option ℕ) (base : σ)
    (action : σ → Except ε σ) : Except ε σ × σ × Option Bool :=
  match explicitTxn with
  | some _ => (action base, base, none)
  | none =>
    match threadTxn with
    | some _ => (action base, base, none)
    | none =>
      match action base with
      | .ok s' => (.ok s', s', some true)
      | .error e => (.error e, base, some false)

/-- C7: scoped-transaction atomicity on failure.  With no explicit
transaction argument and no thread-bound transaction, a failing
operation body leaves the scoped transaction rolled back (never
committed), the durable state exactly as before — no partial writes of
the failed multi-step operation persist — and propagates the original
error to the caller. -/
theorem with_transaction_rolls_back_on_error (base : σ)
    (action : σ → Except ε σ) (e : ε) (hfail : action base = .error e) :
    with_transaction none none base action = (.error e, base, some false) := by
  unfold with_transaction
  rw [hfail]

/-- Witness for C7 at a concrete input: a two-step body that upserts one
pair and then fails leaves the durable table empty and reports the
error. -/
theorem with_transaction_rolls_back_on_error_witness :
    with_transaction none none ([] : List (ℕ × ℕ))
      (fun t => Except.error (dbUpsert t 1 10, "step two failed"))
      = (.error (([(1, 10)] : List (ℕ × ℕ)), "step two failed"),
          ([] : List (ℕ × ℕ)), some false) :=
  with_transaction_rolls_back_on_error ([] : List (ℕ × ℕ))
    (fun t => Except.error (dbUpsert t 1 10, "step two failed"))
    (([(1, 10)] : List (ℕ × ℕ)), "step two failed") (by rfl)

end ScopedTransaction

section PathPolicy

/-!
Pathname resolution, from `Connection::db_init` in `Connection.ipp` and
the helpers of `path_utils.hpp` (POSIX branch: an absolute path is one
starting with a slash).  `db_init` prefixes the executable directory
when `relative_to_exe` is set and the configured pathname is not
absolute; any path that remains relative is then resolved by the
operating system against the process working directory when the
environment file is opened. -/

/-- The `s.rfind(p, 0) == 0` test of `path_utils.hpp`: does the string
start with the given prefix (pathnames are modelled as their character
lists). -/
def starts_with : List Char → List Char → Bool
  | _, [] => true
  | [], _ :: _ => false
  | c :: s, d :: p => c = d && starts_with s p

/-- `is_explicitly_relative` from `path_utils.hpp`: the pathname starts
with an explicit self- or parent-directory prefix. -/
def is_explicitly_relative (s : List Char) : Bool :=
  starts_with s ['.', '/'] || starts_with s ['.', '.', '/']
    || starts_with s ['.', '\\'] || starts_with s ['.', '.', '\\']

/-- `is_absolute_path` from `path_utils.hpp` (POSIX branch): starts with
a slash. -/
def is_absolute_path (s : List Char) : Bool :=
  starts_with s ['/']

/-- The pathname `Connection::db_init` passes to `mdbx_env_open`:
`if (m_config->relative_to_exe && !is_absolute_path(pathname))`
the executable directory is prefixed; nothing else is rewritten. -/
def db_init_pathname (relative_to_exe : Bool)
    (exec_dir pathname : List Char) : List Char :=
  if relative_to_exe && !is_absolute_path pathname then
    exec_dir ++ '/' :: pathname
  else pathname

/-- The absolute location the environment is opened at: a pathname still
relative after `db_init` is resolved by the OS against the working
directory. -/
def db_init_effective_path (relative_to_exe : Bool)
    (exec_dir cwd pathname : List Char) : List Char :=
  let p := db_init_pathname relative_to_exe exec_dir pathname
  if is_absolute_path p then p else cwd ++ '/' :: p

/-- The resolution policy asserted by the spec and by the repository's
own test `tests/path_resolution_test.cpp`
(`expected_path_from_policy`): absolute pathnames stay as they are,
explicitly relative pathnames always resolve against the working
directory regardless of the flag, and other relative pathnames resolve
against the executable directory exactly when the flag is set. -/
def expected_path_from_policy (relative_to_exe : Bool)
    (exec_dir cwd pathname : List Char) : List Char :=
  if is_absolute_path pathname then pathname
  else if is_explicitly_relative pathname then cwd ++ '/' :: pathname
  else if relative_to_exe then exec_dir ++ '/' :: pathname
  else cwd ++ '/' :: pathname

/-- C8 evaluated at the failing input: for the explicitly relative
pathname "./data/db" with `relative_to_exe` set, `db_init` resolves
against the executable directory, while the policy asserted by the spec
and by `tests/path_resolution_test.cpp` (test cases 1.3 and 2.3)
requires the working directory — `is_explicitly_relative` exists in
`path_utils.hpp` but `db_init` never consults it. -/
theorem db_init_ignores_explicitly_relative :
    is_explicitly_relative ['.', '/', 'd', 'b'] = true
    ∧ db_init_effective_path true ['/', 'e', 'x', 'e'] ['/', 'c', 'w', 'd']
        ['.', '/', 'd', 'b']
        = ['/', 'e', 'x', 'e', '/', '.', '/', 'd', 'b']
    ∧ expected_path_from_policy true ['/', 'e', 'x', 'e'] ['/', 'c', 'w', 'd']
        ['.', '/', 'd', 'b']
        = ['/', 'c', 'w', 'd', '/', '.', '/', 'd', 'b']
    ∧ db_init_effective_path true ['/', 'e', 'x', 'e'] ['/', 'c', 'w', 'd']
        ['.', '/', 'd', 'b']
        ≠ expected_path_from_policy true ['/', 'e', 'x', 'e']
            ['/', 'c', 'w', 'd'] ['.', '/', 'd', 'b'] := by
  refine ⟨by decide, by decide, by decide, by decide⟩

end PathPolicy

section KeyOrder

/-!
Key encoding and the table's key order (C5).  The key types of dispatch
rules 2–8 are stored with the `MDBX_INTEGERKEY` flag
(`get_mdbx_flags`) where granted — `int`, `int32_t`, `uint32_t`,
`int64_t`, `uint64_t`, `float`, `double`, `char`, `unsigned char` — and
MDBX then compares the stored 4- or 8-byte keys as native-endian
unsigned integers.  `serialize_key` stores small integrals widened
through `static_cast<uint32_t>`, 4/8-byte integrals as their native
(two's complement) bytes, and floats/doubles through the sortable
mapping of `sortable_key_from_float`/`sortable_key_from_double`.
-/

/-- Little-endian bytes of the `w`-byte machine integer `n mod 256^w`,
as laid out in memory on the supported (little-endian) targets and
copied by `serialize_key` / `sc.view_small_copy`. -/
def leBytes : ℕ → ℕ → List Byte
  | 0, _ => []
  | w + 1, n => ⟨n % 256, Nat.mod_lt _ (by norm_num)⟩ :: leBytes w (n / 256)

/-- The unsigned integer a byte string denotes in little-endian order —
the value MDBX's `MDBX_INTEGERKEY` comparator compares stored keys
by. -/
def leListVal : List Byte → ℕ
  | [] => 0
  | b :: bs => b.val + 256 * leListVal bs

theorem leListVal_leBytes : ∀ (w n : ℕ), leListVal (leBytes w n) = n % 256 ^ w := by
  intro w
  induction w with
  | zero => intro n; simp [leBytes, leListVal, Nat.mod_one]
  | succ w ih =>
    intro n
    simp only [leBytes, leListVal, ih]
    have h256 : (256 : ℕ) ^ (w + 1) = 256 * 256 ^ w := by ring
    rw [h256, Nat.mod_mul]

/-- `serialize_key` for `uint32_t` keys: the key's native 4 bytes. -/
def serialize_key_u32 (v : ℕ) : List Byte := leBytes 4 v

/-- `serialize_key` for `uint64_t` keys: the key's native 8 bytes. -/
def serialize_key_u64 (v : ℕ) : List Byte := leBytes 8 v

/-- `serialize_key` for integral keys of at most 2 bytes:
`uint32_t temp = static_cast<uint32_t>(key)` copied into the scratch
buffer (shown here for an unsigned source value). -/
def serialize_key_small_uint (v : ℕ) : List Byte := leBytes 4 (v % 2 ^ 32)

/-- `serialize_key` for `int32_t` keys: the native two's-complement
bytes of the signed value. -/
def serialize_key_i32 (z : ℤ) : List Byte := leBytes 4 (z % 2 ^ 32).toNat

/-- `sortable_key_from_float`: with `u` the 32 bits of the float, the
source computes `(u & 0x80000000u) ? ~u : (u ^ 0x80000000u)`; for
`u < 2^32` the sign-bit test is `u / 2^31 = 1`, the one's complement
`~u` is `2^32 - 1 - u`, and the xor with only the (clear) sign bit is
`u + 2^31`. -/
def sortable_key_from_float (u : ℕ) : ℕ :=
  if u / 2 ^ 31 = 1 then 2 ^ 32 - 1 - u else u + 2 ^ 31

/-- `sortable_key_from_double`: the 64-bit analogue. -/
def sortable_key_from_double (u : ℕ) : ℕ :=
  if u / 2 ^ 63 = 1 then 2 ^ 64 - 1 - u else u + 2 ^ 63

/-- `serialize_key` for `float` keys: the sortable mapping stored as a
native 4-byte unsigned integer. -/
def serialize_key_float (u : ℕ) : List Byte :=
  leBytes 4 (sortable_key_from_float u)

/-- `serialize_key` for `double` keys: the sortable mapping stored as a
native 8-byte unsigned integer. -/
def serialize_key_double (u : ℕ) : List Byte :=
  leBytes 8 (sortable_key_from_double u)

/-!
IEEE-754 semantics of the bit patterns, generic in the mantissa width
`M` and exponent width `E` (binary32: `M = 23`, `E = 8`; binary64:
`M = 52`, `E = 11`).  A bit pattern `b < 2^(M+E+1)` splits into the
sign `b / 2^(M+E)` and the magnitude `b % 2^(M+E)`, the magnitude into
the biased exponent `e = mag / 2^M` and mantissa `m = mag % 2^M`.  The
represented magnitude is `2^(1-bias) * m / 2^M` when `e = 0`
(subnormal) and `2^(e-bias) * (1 + m / 2^M)` when `0 < e < 2^E - 1`
(normal), with `bias = 2^(E-1) - 1`; `e = 2^E - 1` encodes infinities
and NaNs.  Scaling by `2^(bias+M)` clears all denominators. -/

/-- `2^(bias+M)` times the magnitude represented by `mag`:
`2 * m` for a subnormal, `(2^M + m) * 2^e` for the rest. -/
def magScaled (M : ℕ) (mag : ℕ) : ℕ :=
  let e := mag / 2 ^ M
  let m := mag % 2 ^ M
  if e = 0 then 2 * m else (2 ^ M + m) * 2 ^ e

/-- The signed scaled value of a bit pattern: negative sign bit negates
the scaled magnitude. -/
def f_int (M E b : ℕ) : ℤ :=
  if b / 2 ^ (M + E) = 1 then -(magScaled M (b % 2 ^ (M + E)) : ℤ)
  else (magScaled M (b % 2 ^ (M + E)) : ℤ)

/-- The rational number a finite bit pattern represents:
`f_int / 2^(bias+M)`. -/
def f_val (M E b : ℕ) : ℚ :=
  (f_int M E b : ℚ) / 2 ^ (2 ^ (E - 1) - 1 + M)

/-- A bit pattern with biased exponent below `2^E - 1`: a finite float
(neither an infinity nor a NaN). -/
def f_isFinite (M E b : ℕ) : Bool :=
  b % 2 ^ (M + E) / 2 ^ M < 2 ^ E - 1

theorem magScaled_eq (M q r : ℕ) (hr : r < 2 ^ M) :
    magScaled M (2 ^ M * q + r)
      = if q = 0 then 2 * r else (2 ^ M + r) * 2 ^ q := by
  have hM : 0 < 2 ^ M := Nat.pos_pow_of_pos M (by norm_num)
  unfold magScaled
  have hdiv : (2 ^ M * q + r) / 2 ^ M = q := by
    rw [Nat.mul_add_div hM, Nat.div_eq_of_lt hr, Nat.add_zero]
  have hmod : (2 ^ M * q + r) % 2 ^ M = r := by
    rw [Nat.mul_add_mod, Nat.mod_eq_of_lt hr]
  rw [hdiv, hmod]

theorem magScaled_strictMono (M : ℕ) : StrictMono (magScaled M) := by
  intro mag1 mag2 h
  have hM : 0 < 2 ^ M := Nat.pos_pow_of_pos M (by norm_num)
  obtain ⟨q1, r1, hr1, rfl⟩ :
      ∃ q r, r < 2 ^ M ∧ mag1 = 2 ^ M * q + r :=
    ⟨mag1 / 2 ^ M, mag1 % 2 ^ M, Nat.mod_lt _ hM,
      (Nat.div_add_mod mag1 _).symm⟩
  obtain ⟨q2, r2, hr2, rfl⟩ :
      ∃ q r, r < 2 ^ M ∧ mag2 = 2 ^ M * q + r :=
    ⟨mag2 / 2 ^ M, mag2 % 2 ^ M, Nat.mod_lt _ hM,
      (Nat.div_add_mod mag2 _).symm⟩
  rw [magScaled_eq M q1 r1 hr1, magScaled_eq M q2 r2 hr2]
  have hq : q1 ≤ q2 := by
    by_contra hc
    push_neg at hc
    have hstep : 2 ^ M * q2 + r2 ≤ 2 ^ M * q1 := by
      have h1 : 2 ^ M * q2 + r2 < 2 ^ M * q2 + 2 ^ M := by omega
      have h2 : 2 ^ M * q2 + 2 ^ M = 2 ^ M * (q2 + 1) := by ring
      have h3 : 2 ^ M * (q2 + 1) ≤ 2 ^ M * q1 :=
        Nat.mul_le_mul_left _ (by omega)
      omega
    omega
  rcases Nat.lt_or_ge q1 q2 with hlt | hge
  · have h2 : ¬ q2 = 0 := by omega
    by_cases h1 : q1 = 0
    · rw [if_pos h1, if_neg h2]
      have step1 : 2 * r1 < 2 ^ M * 2 ^ 1 := by
        simp only [pow_one]
        omega
      refine lt_of_lt_of_le step1 ?_
      exact Nat.mul_le_mul (Nat.le_add_right _ _)
        (Nat.pow_le_pow_right (by norm_num) (by omega))
    · rw [if_neg h1, if_neg h2]
      have step1 : (2 ^ M + r1) * 2 ^ q1 < (2 ^ M * 2) * 2 ^ q1 :=
        (Nat.mul_lt_mul_right (Nat.pos_pow_of_pos _ (by norm_num))).mpr
          (by omega)
      have step2 : (2 ^ M * 2) * 2 ^ q1 = 2 ^ M * 2 ^ (q1 + 1) := by ring
      have step3 : 2 ^ M * 2 ^ (q1 + 1) ≤ (2 ^ M + r2) * 2 ^ q2 :=
        Nat.mul_le_mul (Nat.le_add_right _ _)
          (Nat.pow_le_pow_right (by norm_num) (by omega))
      omega
  · have heq : q1 = q2 := le_antisymm hq hge
    subst heq
    have hmlt : r1 < r2 := by omega
    by_cases h1 : q1 = 0
    · rw [if_pos h1, if_pos h1]
      omega
    · rw [if_neg h1, if_neg h1]
      exact (Nat.mul_lt_mul_right (Nat.pos_pow_of_pos _ (by norm_num))).mpr
        (by omega)

/-- The generic form of the sortable mapping for a `1 + E + M`-bit
float: complement when the sign bit is set, set the sign bit
otherwise. -/
def sortKeyGen (M E u : ℕ) : ℕ :=
  if u / 2 ^ (M + E) = 1 then 2 ^ (M + E + 1) - 1 - u
  else u + 2 ^ (M + E)

theorem sortable_key_from_float_eq_gen (u : ℕ) :
    sortable_key_from_float u = sortKeyGen 23 8 u := rfl

theorem sortable_key_from_double_eq_gen (u : ℕ) :
    sortable_key_from_double u = sortKeyGen 52 11 u := rfl

theorem f_val_lt_iff (M E a b : ℕ) :
    f_val M E a < f_val M E b ↔ f_int M E a < f_int M E b := by
  unfold f_val
  rw [div_lt_div_iff_of_pos_right (by positivity)]
  exact Int.cast_lt

theorem f_val_le_iff (M E a b : ℕ) :
    f_val M E a ≤ f_val M E b ↔ f_int M E a ≤ f_int M E b := by
  unfold f_val
  rw [div_le_div_iff_of_pos_right (by positivity)]
  exact Int.cast_le

theorem sortKeyGen_spec (M E a b : ℕ)
    (ha : a < 2 ^ (M + E + 1)) (hb : b < 2 ^ (M + E + 1)) :
    (f_int M E a < f_int M E b → sortKeyGen M E a < sortKeyGen M E b)
    ∧ (sortKeyGen M E a < sortKeyGen M E b → f_int M E a ≤ f_int M E b) := by
  have hS : 0 < 2 ^ (M + E) := Nat.pos_pow_of_pos _ (by norm_num)
  have h2S : 2 ^ (M + E + 1) = 2 ^ (M + E) * 2 := by ring
  have hsa : a / 2 ^ (M + E) < 2 := by
    rw [Nat.div_lt_iff_lt_mul hS]
    omega
  have hsb : b / 2 ^ (M + E) < 2 := by
    rw [Nat.div_lt_iff_lt_mul hS]
    omega
  have hma : a % 2 ^ (M + E) < 2 ^ (M + E) := Nat.mod_lt _ hS
  have hmb : b % 2 ^ (M + E) < 2 ^ (M + E) := Nat.mod_lt _ hS
  have hda := Nat.div_add_mod a (2 ^ (M + E))
  have hdb := Nat.div_add_mod b (2 ^ (M + E))
  have hNa : (0 : ℤ) ≤ (magScaled M (a % 2 ^ (M + E)) : ℤ) :=
    Int.natCast_nonneg _
  have hNb : (0 : ℤ) ≤ (magScaled M (b % 2 ^ (M + E)) : ℤ) :=
    Int.natCast_nonneg _
  have hmono := magScaled_strictMono M
  unfold f_int sortKeyGen
  by_cases hA : a / 2 ^ (M + E) = 1 <;> by_cases hB : b / 2 ^ (M + E) = 1
  · rw [if_pos hA, if_pos hB, if_pos hA, if_pos hB]
    rw [hA] at hda
    rw [hB] at hdb
    constructor
    · intro hlt
      have hN : magScaled M (b % 2 ^ (M + E)) < magScaled M (a % 2 ^ (M + E)) := by
        exact_mod_cast neg_lt_neg_iff.mp hlt
      have hmag : b % 2 ^ (M + E) < a % 2 ^ (M + E) := hmono.lt_iff_lt.mp hN
      omega
    · intro hk
      have hab : b < a := by omega
      have hmag : b % 2 ^ (M + E) < a % 2 ^ (M + E) := by omega
      have hN : magScaled M (b % 2 ^ (M + E)) < magScaled M (a % 2 ^ (M + E)) :=
        hmono hmag
      have : -(magScaled M (a % 2 ^ (M + E)) : ℤ)
          < -(magScaled M (b % 2 ^ (M + E)) : ℤ) := by
        exact_mod_cast neg_lt_neg_iff.mpr (by exact_mod_cast hN)
      exact this.le
  · rw [if_pos hA, if_neg hB, if_pos hA, if_neg hB]
    rw [hA] at hda
    constructor
    · intro _
      omega
    · intro _
      exact le_trans (neg_nonpos.mpr hNa) hNb
  · rw [if_neg hA, if_pos hB, if_neg hA, if_pos hB]
    rw [hB] at hdb
    constructor
    · intro hlt
      exact absurd hlt (not_lt.mpr (le_trans (neg_nonpos.mpr hNb) hNa))
    · intro hk
      exact absurd hk (by omega)
  · rw [if_neg hA, if_neg hB, if_neg hA, if_neg hB]
    have hA0 : a / 2 ^ (M + E) = 0 := by
      revert hsa hA
      generalize a / 2 ^ (M + E) = s
      intro hsa hA
      omega
    have hB0 : b / 2 ^ (M + E) = 0 := by
      revert hsb hB
      generalize b / 2 ^ (M + E) = s
      intro hsb hB
      omega
    rw [hA0] at hda
    rw [hB0] at hdb
    constructor
    · intro hlt
      have hN : magScaled M (a % 2 ^ (M + E)) < magScaled M (b % 2 ^ (M + E)) := by
        exact_mod_cast hlt
      have hmag : a % 2 ^ (M + E) < b % 2 ^ (M + E) := hmono.lt_iff_lt.mp hN
      omega
    · intro hk
      have hmag : a % 2 ^ (M + E) < b % 2 ^ (M + E) := by omega
      have hN : magScaled M (a % 2 ^ (M + E)) < magScaled M (b % 2 ^ (M + E)) :=
        hmono hmag
      exact_mod_cast hN.le

theorem sortKeyGen_lt_bound (M E u : ℕ) (hu : u < 2 ^ (M + E + 1)) :
    sortKeyGen M E u < 2 ^ (M + E + 1) := by
  have hS : 0 < 2 ^ (M + E) := Nat.pos_pow_of_pos _ (by norm_num)
  have h2S : 2 ^ (M + E + 1) = 2 ^ (M + E) * 2 := by ring
  have hsu : u / 2 ^ (M + E) < 2 := by
    rw [Nat.div_lt_iff_lt_mul hS]
    omega
  have hdu := Nat.div_add_mod u (2 ^ (M + E))
  have hmu : u % 2 ^ (M + E) < 2 ^ (M + E) := Nat.mod_lt _ hS
  unfold sortKeyGen
  by_cases hU : u / 2 ^ (M + E) = 1
  · rw [if_pos hU]
    omega
  · rw [if_neg hU]
    have hU0 : u / 2 ^ (M + E) = 0 := by
      revert hsu hU
      generalize u / 2 ^ (M + E) = s
      intro hsu hU
      omega
    rw [hU0] at hdu
    omega

theorem leListVal_leBytes4_of_lt (v : ℕ) (hv : v < 2 ^ 32) :
    leListVal (leBytes 4 v) = v := by
  rw [leListVal_leBytes]
  have h : (256 : ℕ) ^ 4 = 2 ^ 32 := by norm_num
  rw [h, Nat.mod_eq_of_lt hv]

theorem leListVal_leBytes8_of_lt (v : ℕ) (hv : v < 2 ^ 64) :
    leListVal (leBytes 8 v) = v := by
  rw [leListVal_leBytes]
  have h : (256 : ℕ) ^ 8 = 2 ^ 64 := by norm_num
  rw [h, Nat.mod_eq_of_lt hv]

/-- Counterexample to C5 as stated: for the signed 4-byte integral key
type `int32_t` (dispatch rule 3, stored under `MDBX_INTEGERKEY`, whose
comparator orders stored keys as native unsigned integers), comparing
the encoded keys of `a = -1` and `b = 0` disagrees with the numeric
order: `-1` encodes as `0xFFFFFFFF`, which sorts after `0`. -/
theorem signed_key_order_counterexample :
    ¬ ((leListVal (serialize_key_i32 (-1)) < leListVal (serialize_key_i32 0))
        ↔ ((-1 : ℤ) < 0)) := by
  decide

/-- C5 (amended): the table's key order (the `MDBX_INTEGERKEY`
comparison of the stored bytes as native unsigned integers) matches the
numeric order for the unsigned key encodings: small unsigned integrals
widened to 4 bytes, `uint32_t`, and `uint64_t`; and for `float` /
`double` keys the sortable mapping is strictly monotone on finite
(non-NaN, non-infinite) values — numerically smaller keys get strictly
smaller encodings, and a strictly smaller encoding implies a
numerically no-larger key (`-0.0` and `+0.0` are equal numerically but
receive distinct adjacent encodings, so only the one-sided implications
hold there).  Signed integral keys do not preserve order across signs
(see the counterexample). -/
theorem key_order_preservation :
    (∀ a b : ℕ, a < 2 ^ 8 → b < 2 ^ 8 →
      (leListVal (serialize_key_small_uint a)
          < leListVal (serialize_key_small_uint b) ↔ a < b))
    ∧ (∀ a b : ℕ, a < 2 ^ 32 → b < 2 ^ 32 →
      (leListVal (serialize_key_u32 a) < leListVal (serialize_key_u32 b)
        ↔ a < b))
    ∧ (∀ a b : ℕ, a < 2 ^ 64 → b < 2 ^ 64 →
      (leListVal (serialize_key_u64 a) < leListVal (serialize_key_u64 b)
        ↔ a < b))
    ∧ (∀ a b : ℕ, a < 2 ^ 32 → b < 2 ^ 32 →
      f_isFinite 23 8 a = true → f_isFinite 23 8 b = true →
      (f_val 23 8 a < f_val 23 8 b →
        leListVal (serialize_key_float a) < leListVal (serialize_key_float b))
      ∧ (leListVal (serialize_key_float a) < leListVal (serialize_key_float b) →
        f_val 23 8 a ≤ f_val 23 8 b))
    ∧ (∀ a b : ℕ, a < 2 ^ 64 → b < 2 ^ 64 →
      f_isFinite 52 11 a = true → f_isFinite 52 11 b = true →
      (f_val 52 11 a < f_val 52 11 b →
        leListVal (serialize_key_double a) < leListVal (serialize_key_double b))
      ∧ (leListVal (serialize_key_double a) < leListVal (serialize_key_double b) →
        f_val 52 11 a ≤ f_val 52 11 b)) := by
  refine ⟨?_, ?_, ?_, ?_, ?_⟩
  · intro a b ha hb
    unfold serialize_key_small_uint
    rw [Nat.mod_eq_of_lt (by omega), Nat.mod_eq_of_lt (by omega),
      leListVal_leBytes4_of_lt a (by omega), leListVal_leBytes4_of_lt b (by omega)]
  · intro a b ha hb
    unfold serialize_key_u32
    rw [leListVal_leBytes4_of_lt a ha, leListVal_leBytes4_of_lt b hb]
  · intro a b ha hb
    unfold serialize_key_u64
    rw [leListVal_leBytes8_of_lt a ha, leListVal_leBytes8_of_lt b hb]
  · intro a b ha hb _hfa _hfb
    have ha' : a < 2 ^ (23 + 8 + 1) := ha
    have hb' : b < 2 ^ (23 + 8 + 1) := hb
    have hka : leListVal (serialize_key_float a) = sortKeyGen 23 8 a := by
      unfold serialize_key_float
      rw [sortable_key_from_float_eq_gen,
        leListVal_leBytes4_of_lt _ (sortKeyGen_lt_bound 23 8 a ha')]
    have hkb : leListVal (serialize_key_float b) = sortKeyGen 23 8 b := by
      unfold serialize_key_float
      rw [sortable_key_from_float_eq_gen,
        leListVal_leBytes4_of_lt _ (sortKeyGen_lt_bound 23 8 b hb')]
    rw [hka, hkb]
    have hspec := sortKeyGen_spec 23 8 a b ha' hb'
    exact ⟨fun hv => hspec.1 ((f_val_lt_iff 23 8 a b).mp hv),
      fun hk => (f_val_le_iff 23 8 a b).mpr (hspec.2 hk)⟩
  · intro a b ha hb _hfa _hfb
    have ha' : a < 2 ^ (52 + 11 + 1) := ha
    have hb' : b < 2 ^ (52 + 11 + 1) := hb
    have hka : leListVal (serialize_key_double a) = sortKeyGen 52 11 a := by
      unfold serialize_key_double
      rw [sortable_key_from_double_eq_gen,
        leListVal_leBytes8_of_lt _ (sortKeyGen_lt_bound 52 11 a ha')]
    have hkb : leListVal (serialize_key_double b) = sortKeyGen 52 11 b := by
      unfold serialize_key_double
      rw [sortable_key_from_double_eq_gen,
        leListVal_leBytes8_of_lt _ (sortKeyGen_lt_bound 52 11 b hb')]
    rw [hka, hkb]
    have hspec := sortKeyGen_spec 52 11 a b ha' hb'
    exact ⟨fun hv => hspec.1 ((f_val_lt_iff 52 11 a b).mp hv),
      fun hk => (f_val_le_iff 52 11 a b).mpr (hspec.2 hk)⟩

/-- Witness for the amended C5 at concrete keys: `uint32_t` keys 1 and
2, and the `float` bit patterns of `-1.0f` (0xBF800000) versus `1.0f`
(0x3F800000). -/
theorem key_order_preservation_witness :
    ((leListVal (serialize_key_u32 1) < leListVal (serialize_key_u32 2))
      ↔ (1 : ℕ) < 2)
    ∧ ((f_val 23 8 3212836864 < f_val 23 8 1065353216 →
        leListVal (serialize_key_float 3212836864)
          < leListVal (serialize_key_float 1065353216))
      ∧ (leListVal (serialize_key_float 3212836864)
          < leListVal (serialize_key_float 1065353216) →
        f_val 23 8 3212836864 ≤ f_val 23 8 1065353216)) :=
  ⟨key_order_preservation.2.1 1 2 (by norm_num) (by norm_num),
   key_order_preservation.2.2.2.1 3212836864 1065353216
     (by norm_num) (by norm_num) (by decide) (by decide)⟩

end KeyOrder

end Mdbxc
